import Mathlib

/-!
Verification of the computational core of `dicemap.py`:
the pair count-map `doubleDiceCall` and the recursive multi-dice
distribution function `diceMap`.

The embedding is faithful to the Python source:
* Python ints are modelled as `ℤ`; the values flowing through `diceMap`
  (which mixes ints and floats in Python) are modelled as `ℚ`, division
  being exact there.
* `doubleDiceCall` builds a `[None]*(n+m-1)` list and fills it by the
  mirrored loop, so it is modelled over `List (Option ℤ)`.
* Failures of the Python code (`reduce` over an empty list raising
  `TypeError`, division by zero raising `ZeroDivisionError`) are modelled
  with `Except`.
-/

namespace DiceMapApp

inductive PyError
  | typeError
  | zeroDivisionError
  deriving DecidableEq

/-- one iteration of the mirrored initialisation loop of `doubleDiceCall`:
`if i >= maxCount: countRet[i] = maxCount; countRet[len-1-i] = maxCount`
`else: countRet[i] = i + 1; countRet[len-1-i] = i + 1`. -/
def ddcStep (len : ℕ) (maxCount : ℤ) (i : ℕ) (arr : List (Option ℤ)) : List (Option ℤ) :=
  if (i : ℤ) ≥ maxCount then
    (arr.set i (some maxCount)).set (len - 1 - i) (some maxCount)
  else
    (arr.set i (some ((i : ℤ) + 1))).set (len - 1 - i) (some ((i : ℤ) + 1))

/-- the loop `for i in range(j): ...` of `doubleDiceCall`, iterations
`0, 1, ..., j-1` executed in that order. -/
def ddcLoop (len : ℕ) (maxCount : ℤ) : ℕ → List (Option ℤ) → List (Option ℤ)
  | 0, arr => arr
  | j + 1, arr => ddcStep len maxCount j (ddcLoop len maxCount j arr)

/-- `doubleDiceCall(n, m)` from `dicemap.py`:
`countRet = [None]*(n+m-1)`, `maxCount = min(m, n)`, then the mirrored
loop over `range(math.ceil(len(countRet)/2))`; `math.ceil(len/2)` on a
non-negative int is `(len+1)//2`. -/
def doubleDiceCall (n m : ℤ) : List (Option ℤ) :=
  ddcLoop (n + m - 1).toNat (min m n) (((n + m - 1).toNat + 1) / 2)
    (List.replicate (n + m - 1).toNat none)

/-- length of the `probArray` allocated by `diceMap`:
`[0]*(sum(diceList)-len(diceList)+1)` (empty when the size is ≤ 0). -/
def cmLen (l : List ℤ) : ℕ := (l.sum - l.length + 1).toNat

/-- the inner loop `for placeIndex in range(len(tmp)):`
`probArray[placeIndex + probOffset] += tmp[placeIndex]` of `diceMap`
(all reachable writes stay in bounds; see `accumLoop_getElem?`). -/
def addShifted (tmp : List ℚ) (off : ℕ) (arr : List ℚ) : List ℚ :=
  (List.range tmp.length).foldl
    (fun a p => a.set (p + off) (a.getD (p + off) 0 + tmp.getD p 0)) arr

/-- the outer loop `for probOffset in range(diceList[0]):` of `diceMap`,
starting from the freshly allocated zero `probArray`. -/
def accumLoop (lenP : ℕ) (tmp : List ℚ) (d0 : ℤ) : List ℚ :=
  (List.range d0.toNat).foldl (fun a off => addShifted tmp off a)
    (List.replicate lenP (0 : ℚ))

/-- the tail of `diceMap`: `if rec: return probArray` /
`return [i/div for i in probArray]`; the comprehension raises
`ZeroDivisionError` exactly when `div == 0` and `probArray` is non-empty. -/
def finishDiv (div : ℤ) (r : Bool) (probArray : List ℚ) : Except PyError (List ℚ) :=
  if r then Except.ok probArray
  else if div = 0 ∧ probArray ≠ [] then Except.error PyError.zeroDivisionError
  else Except.ok (probArray.map (fun q => q / (div : ℚ)))

/-- `diceMap(diceList, rec)` from `dicemap.py`.
`reduce(mul, diceList)` raises `TypeError` on the empty list and is
`diceList[0] * diceList[1] * ...` (a left fold) otherwise; the one-die
branch returns `[1/diceList[0] for _ in range(diceList[0])]` before the
`rec` flag is consulted; the two-dice branch delegates to
`doubleDiceCall` (whose entries are all filled, so reading them with a
default is exact); the longer branch recurses on `diceList[1:]` with
`rec=True` and runs the offset-sum accumulation loops. -/
def diceMap : List ℤ → Bool → Except PyError (List ℚ)
  | [], _ => Except.error PyError.typeError
  | [d0], _ => Except.ok (List.replicate d0.toNat (1 / (d0 : ℚ)))
  | [d0, d1], r =>
      finishDiv ([d1].foldl (· * ·) d0) r
        ((doubleDiceCall d0 d1).map (fun o => ((o.getD 0 : ℤ) : ℚ)))
  | d0 :: d1 :: d2 :: rest, r =>
      match diceMap (d1 :: d2 :: rest) true with
      | Except.error e => Except.error e
      | Except.ok tmp =>
          finishDiv ((d1 :: d2 :: rest).foldl (· * ·) d0) r
            (accumLoop (cmLen (d0 :: d1 :: d2 :: rest)) tmp d0)

/-- a hand is valid when it is non-empty and every die size is at least 1. -/
def validHand (l : List ℤ) : Prop := l ≠ [] ∧ ∀ d ∈ l, 1 ≤ d

instance (l : List ℤ) : Decidable (validHand l) := by
  unfold validHand; infer_instance

/-- the value the mirrored loop of `doubleDiceCall` writes at its front
position `i`: `maxCount` when `i ≥ maxCount`, else `i + 1`; in both cases
`min (i+1) maxCount`. -/
def ddcVal (k : ℤ) (i : ℕ) : ℤ := min ((i : ℤ) + 1) k

/-- the inner loop of `diceMap` stopped after its first `q` iterations. -/
def addShiftedUpTo (tmp : List ℚ) (off : ℕ) (arr : List ℚ) (q : ℕ) : List ℚ :=
  (List.range q).foldl
    (fun a p => a.set (p + off) (a.getD (p + off) 0 + tmp.getD p 0)) arr

/-- the outer loop of `diceMap` stopped after its first `j` offsets. -/
def accumUpTo (lenP : ℕ) (tmp : List ℚ) (j : ℕ) : List ℚ :=
  (List.range j).foldl (fun a off => addShifted tmp off a)
    (List.replicate lenP (0 : ℚ))

/-- the uniform kernel of one die: `1 + X + ... + X^(d-1)`. -/
noncomputable def kernel (d : ℤ) : Polynomial ℤ :=
  ∑ j ∈ Finset.range d.toNat, Polynomial.X ^ j

/-- the counting polynomial of a hand: product of its dice kernels. -/
noncomputable def countPoly (l : List ℤ) : Polynomial ℤ := (l.map kernel).prod

/-- the count-map of a hand, read off as coefficients of `countPoly`. -/
noncomputable def countMapL (l : List ℤ) : List ℚ :=
  (List.range (cmLen l)).map (fun i => (((countPoly l).coeff i : ℤ) : ℚ))

/-- Python-semantics primitives for the (mutable) list object that `diceMap`
receives: each returns the computed value together with the state of the
object after the operation (`sum`, `len`, subscripting and slicing read
without mutating; `diceList[1:]` hands the callee a fresh copy). -/
def pySum (s : List ℤ) : ℤ × List ℤ := (s.sum, s)

def pyLen (s : List ℤ) : ℕ × List ℤ := (s.length, s)

def pySubscript (s : List ℤ) (i : ℕ) : ℤ × List ℤ := (s.getD i 0, s)

def pySliceTail (s : List ℤ) : List ℤ × List ℤ := (s.drop 1, s)

def pyReduceMul (s : List ℤ) : Except PyError ℤ × List ℤ :=
  (match s with
   | [] => Except.error PyError.typeError
   | d :: t => Except.ok (t.foldl (· * ·) d), s)

/-- the body of `diceMap` with every access to `diceList` threaded through
the primitives above; recursion is by fuel because the recursive call's
argument is the value produced by the slice.  Fuel `0` is reached only for
the empty list, where `reduce` raises `TypeError` anyway. -/
def diceMapStFuel : ℕ → List ℤ → Bool → Except PyError (List ℚ) × List ℤ
  | 0, dl, _ => (Except.error PyError.typeError, dl)
  | fuel + 1, dl, r =>
      let (sumv, st1) := pySum dl
      let (lenv, st2) := pyLen st1
      let lenP := (sumv - (lenv : ℤ) + 1).toNat
      let (divE, st3) := pyReduceMul st2
      match divE with
      | Except.error e => (Except.error e, st3)
      | Except.ok div =>
          if lenv = 1 then
            let (d0a, st4) := pySubscript st3 0
            let (d0b, st5) := pySubscript st4 0
            (Except.ok (List.replicate d0b.toNat (1 / (d0a : ℚ))), st5)
          else if 2 < lenv then
            let (tailCopy, st4) := pySliceTail st3
            match (diceMapStFuel fuel tailCopy true).1 with
            | Except.error e => (Except.error e, st4)
            | Except.ok tmp =>
                let (d0, st5) := pySubscript st4 0
                (finishDiv div r (accumLoop lenP tmp d0), st5)
          else
            let (d0, st4) := pySubscript st3 0
            let (d1, st5) := pySubscript st4 1
            (finishDiv div r
              ((doubleDiceCall d0 d1).map (fun o => ((o.getD 0 : ℤ) : ℚ))), st5)

def diceMapSt (dl : List ℤ) (r : Bool) : Except PyError (List ℚ) × List ℤ :=
  diceMapStFuel dl.length dl r

/-! ### Closed form of `doubleDiceCall` -/

lemma ddcStep_eq (len : ℕ) (k : ℤ) (i : ℕ) (arr : List (Option ℤ)) :
    ddcStep len k i arr
      = (arr.set i (some (ddcVal k i))).set (len - 1 - i) (some (ddcVal k i)) := by
  unfold ddcStep ddcVal
  split_ifs with h
  · have hmin : min ((i : ℤ) + 1) k = k := by omega
    rw [hmin]
  · have hmin : min ((i : ℤ) + 1) k = (i : ℤ) + 1 := by omega
    rw [hmin]

lemma ddcLoop_length (len : ℕ) (k : ℤ) (j : ℕ) (arr : List (Option ℤ)) :
    (ddcLoop len k j arr).length = arr.length := by
  induction j with
  | zero => rfl
  | succ j ih => simp [ddcLoop, ddcStep_eq, List.length_set, ih]

/-- loop invariant of the mirrored initialisation loop: after the first `j`
iterations, the first `j` positions and the last `j` positions carry their
final values and everything in between is still `None`. -/
lemma ddcLoop_getElem? (len : ℕ) (k : ℤ) (j : ℕ) (hj : 2 * j ≤ len + 1)
    (p : ℕ) (hp : p < len) :
    (ddcLoop len k j (List.replicate len none))[p]?
      = some (if p < j then some (ddcVal k p)
              else if len ≤ p + j then some (ddcVal k (len - 1 - p))
              else none) := by
  induction j with
  | zero =>
      simp only [ddcLoop, List.getElem?_replicate, if_pos hp]
      have h1 : ¬ p < 0 := by omega
      have h2 : ¬ len ≤ p + 0 := by omega
      rw [if_neg h1, if_neg h2]
  | succ j ih =>
      have hj' : 2 * j ≤ len + 1 := by omega
      have hlen : (ddcLoop len k j (List.replicate len none)).length = len := by
        rw [ddcLoop_length, List.length_replicate]
      have hlen' : ((ddcLoop len k j (List.replicate len none)).set j
          (some (ddcVal k j))).length = len := by
        rw [List.length_set, hlen]
      rw [show ddcLoop len k (j + 1) (List.replicate len none)
            = ddcStep len k j (ddcLoop len k j (List.replicate len none)) from rfl,
        ddcStep_eq, List.getElem?_set, List.getElem?_set, hlen, hlen', ih hj']
      split_ifs <;> first
        | rfl
        | omega
        | (congr 3 <;> omega)

lemma doubleDiceCall_length (n m : ℤ) :
    (doubleDiceCall n m).length = (n + m - 1).toNat := by
  unfold doubleDiceCall
  rw [ddcLoop_length, List.length_replicate]

/-- closed form of `doubleDiceCall`: the entry at offset `p` is the filled
trapezoid value `min (p+1) (min (min n m) (n+m-1-p))`. -/
lemma doubleDiceCall_getElem? (n m : ℤ) (p : ℕ) (hp : p < (n + m - 1).toNat) :
    (doubleDiceCall n m)[p]?
      = some (some (min (min ((p : ℤ) + 1) (min n m)) (n + m - 1 - p))) := by
  unfold doubleDiceCall
  rw [ddcLoop_getElem? _ _ _ (by omega) _ hp]
  split_ifs <;> first
    | omega
    | (congr 2; unfold ddcVal; omega)

/-! ### Basic facts about hands and the loops of `diceMap` -/

lemma foldl_mul_eq_prod (l : List ℤ) : ∀ a : ℤ, l.foldl (· * ·) a = a * l.prod := by
  induction l with
  | nil => intro a; simp
  | cons d t ih => intro a; simp [List.foldl_cons, ih, List.prod_cons, mul_assoc]

lemma prod_pos_of_one_le (l : List ℤ) (h : ∀ d ∈ l, 1 ≤ d) : 0 < l.prod := by
  induction l with
  | nil => simp
  | cons d t ih =>
      rw [List.prod_cons]
      have hd : 1 ≤ d := h d (by simp)
      have ht : 0 < t.prod := ih (fun x hx => h x (by simp [hx]))
      positivity

lemma length_le_sum_of_one_le (l : List ℤ) (h : ∀ d ∈ l, 1 ≤ d) :
    (l.length : ℤ) ≤ l.sum := by
  induction l with
  | nil => simp
  | cons d t ih =>
      have hd : 1 ≤ d := h d (by simp)
      have ht := ih (fun x hx => h x (by simp [hx]))
      simp only [List.length_cons, List.sum_cons]
      push_cast
      omega

lemma addShifted_length (tmp : List ℚ) (off : ℕ) (arr : List ℚ) :
    (addShifted tmp off arr).length = arr.length := by
  unfold addShifted
  generalize List.range tmp.length = idxs
  induction idxs generalizing arr with
  | nil => rfl
  | cons p ps ih => rw [List.foldl_cons, ih, List.length_set]

lemma foldl_addShifted_length (tmp : List ℚ) (offs : List ℕ) :
    ∀ arr : List ℚ,
      (offs.foldl (fun a off => addShifted tmp off a) arr).length = arr.length := by
  induction offs with
  | nil => intro arr; rfl
  | cons o os ih => intro arr; rw [List.foldl_cons, ih, addShifted_length]

lemma accumLoop_length (lenP : ℕ) (tmp : List ℚ) (d0 : ℤ) :
    (accumLoop lenP tmp d0).length = lenP := by
  unfold accumLoop
  rw [foldl_addShifted_length, List.length_replicate]

lemma finishDiv_of_ne_zero (div : ℤ) (hdiv : div ≠ 0) (r : Bool) (pa : List ℚ) :
    finishDiv div r pa
      = Except.ok (if r then pa else pa.map (fun q => q / (div : ℚ))) := by
  unfold finishDiv
  cases r with
  | true => rfl
  | false =>
      rw [if_neg (by simp), if_neg (by simp [hdiv]), if_neg (by simp)]

lemma diceMap_pair (d0 d1 : ℤ) (r : Bool) :
    diceMap [d0, d1] r
      = finishDiv (d0 * d1) r
          ((doubleDiceCall d0 d1).map (fun o => ((o.getD 0 : ℤ) : ℚ))) := rfl

lemma diceMap_cons₃ (d0 d1 d2 : ℤ) (rest : List ℤ) (r : Bool) (tmp : List ℚ)
    (h : diceMap (d1 :: d2 :: rest) true = Except.ok tmp) :
    diceMap (d0 :: d1 :: d2 :: rest) r
      = finishDiv ((d1 :: d2 :: rest).foldl (· * ·) d0) r
          (accumLoop (cmLen (d0 :: d1 :: d2 :: rest)) tmp d0) := by
  have hdef : diceMap (d0 :: d1 :: d2 :: rest) r
      = match diceMap (d1 :: d2 :: rest) true with
        | Except.error e => Except.error e
        | Except.ok tmp =>
            finishDiv ((d1 :: d2 :: rest).foldl (· * ·) d0) r
              (accumLoop (cmLen (d0 :: d1 :: d2 :: rest)) tmp d0) := rfl
  rw [hdef, h]

lemma validHand_tail (d0 d1 : ℤ) (t : List ℤ) (hv : validHand (d0 :: d1 :: t)) :
    validHand (d1 :: t) :=
  ⟨by simp, fun x hx => hv.2 x (List.mem_cons_of_mem d0 hx)⟩

/-- totality of `diceMap` over valid hands, together with the length of the
returned list: `sum(hand) - len(hand) + 1`. -/
lemma diceMap_ok : ∀ (l : List ℤ), validHand l → ∀ (r : Bool),
    ∃ res, diceMap l r = Except.ok res ∧ res.length = cmLen l := by
  intro l
  induction l with
  | nil => intro hv; exact absurd rfl hv.1
  | cons d0 t ih =>
      intro hv r
      match t, ih with
      | [], _ =>
          refine ⟨_, rfl, ?_⟩
          have hd0 : 1 ≤ d0 := hv.2 d0 (by simp)
          simp only [List.length_replicate, cmLen, List.sum_cons, List.sum_nil,
            List.length_cons, List.length_nil]
          omega
      | [d1], _ =>
          have hd0 : 1 ≤ d0 := hv.2 d0 (by simp)
          have hd1 : 1 ≤ d1 := hv.2 d1 (by simp)
          have hdiv : d0 * d1 ≠ 0 := (mul_pos (by omega) (by omega)).ne'
          rw [diceMap_pair, finishDiv_of_ne_zero _ hdiv]
          refine ⟨_, rfl, ?_⟩
          cases r <;>
            simp only [List.length_map, doubleDiceCall_length, cmLen,
              List.sum_cons, List.sum_nil, List.length_cons, List.length_nil,
              if_true, if_false, Bool.false_eq_true] <;>
          omega
      | d1 :: d2 :: rest, ih =>
          have hvt : validHand (d1 :: d2 :: rest) := validHand_tail d0 d1 _ hv
          obtain ⟨tmp, htmp, -⟩ := ih hvt true
          have hd0 : 1 ≤ d0 := hv.2 d0 (by simp)
          have hdiv : (d1 :: d2 :: rest).foldl (· * ·) d0 ≠ 0 := by
            rw [foldl_mul_eq_prod]
            exact (mul_pos (by omega) (prod_pos_of_one_le _ hvt.2)).ne'
          rw [diceMap_cons₃ d0 d1 d2 rest r tmp htmp, finishDiv_of_ne_zero _ hdiv]
          refine ⟨_, rfl, ?_⟩
          cases r <;> simp [accumLoop_length]

/-! ### The count-map as polynomial coefficients

The count-map of a hand is the coefficient list of the product of the
uniform kernels `1 + X + ... + X^(d-1)`, one per die.  Commutativity of
polynomial multiplication gives order-independence, evaluation at 1 gives
the entry-sum invariant. -/

lemma kernel_coeff (d : ℤ) (j : ℕ) :
    (kernel d).coeff j = if j < d.toNat then 1 else 0 := by
  unfold kernel
  rw [Polynomial.finset_sum_coeff]
  simp only [Polynomial.coeff_X_pow]
  rw [Finset.sum_ite_eq (Finset.range d.toNat) j (fun _ => (1 : ℤ))]
  simp [Finset.mem_range]

lemma kernel_natDegree_le (d : ℤ) : (kernel d).natDegree ≤ d.toNat - 1 := by
  unfold kernel
  apply Polynomial.natDegree_sum_le_of_forall_le
  intro j hj
  rw [Polynomial.natDegree_X_pow]
  have := Finset.mem_range.mp hj
  omega

lemma kernel_eval_one (d : ℤ) : (kernel d).eval 1 = (d.toNat : ℤ) := by
  unfold kernel
  rw [Polynomial.eval_finset_sum]
  simp

lemma countPoly_cons (d : ℤ) (t : List ℤ) :
    countPoly (d :: t) = kernel d * countPoly t := by
  unfold countPoly
  rw [List.map_cons, List.prod_cons]

lemma countPoly_natDegree_le (l : List ℤ) (h : ∀ x ∈ l, 1 ≤ x) :
    ((countPoly l).natDegree : ℤ) ≤ l.sum - l.length := by
  induction l with
  | nil => simp [countPoly]
  | cons d t ih =>
      rw [countPoly_cons]
      have hd : 1 ≤ d := h d (by simp)
      have ht := ih (fun x hx => h x (by simp [hx]))
      have hmul := Polynomial.natDegree_mul_le (p := kernel d) (q := countPoly t)
      have hk := kernel_natDegree_le d
      simp only [List.sum_cons, List.length_cons]
      push_cast
      omega

lemma countPoly_coeff_eq_zero (l : List ℤ) (h : ∀ x ∈ l, 1 ≤ x) (q : ℕ)
    (hq : l.sum - l.length < (q : ℤ)) : (countPoly l).coeff q = 0 := by
  apply Polynomial.coeff_eq_zero_of_natDegree_lt
  have := countPoly_natDegree_le l h
  omega

lemma countPoly_eval_one (l : List ℤ) (h : ∀ x ∈ l, 1 ≤ x) :
    (countPoly l).eval 1 = l.prod := by
  induction l with
  | nil => simp [countPoly]
  | cons d t ih =>
      rw [countPoly_cons, Polynomial.eval_mul, kernel_eval_one,
        ih (fun x hx => h x (by simp [hx])), List.prod_cons]
      have hd : 1 ≤ d := h d (by simp)
      rw [Int.toNat_of_nonneg (by omega)]

lemma coeff_kernel_mul (d : ℤ) (P : Polynomial ℤ) (i : ℕ) :
    (kernel d * P).coeff i
      = ∑ o ∈ Finset.range d.toNat, if o ≤ i then P.coeff (i - o) else 0 := by
  unfold kernel
  rw [Finset.sum_mul, Polynomial.finset_sum_coeff]
  refine Finset.sum_congr rfl fun o _ => ?_
  rw [Polynomial.X_pow_mul, Polynomial.coeff_mul_X_pow']

/-- coefficient of the product of two kernels: the trapezoid count of
`doubleDiceCall`. -/
lemma coeff_kernel_kernel (a b : ℤ) (ha : 1 ≤ a) (hb : 1 ≤ b) (i : ℕ)
    (hi : (i : ℤ) < a + b - 1) :
    (kernel a * kernel b).coeff i
      = min (min ((i : ℤ) + 1) (min a b)) (a + b - 1 - i) := by
  rw [coeff_kernel_mul]
  have hcongr : ∀ o ∈ Finset.range a.toNat,
      (if o ≤ i then (kernel b).coeff (i - o) else 0)
        = if o ≤ i ∧ i - o < b.toNat then 1 else 0 := by
    intro o ho
    by_cases h1 : o ≤ i
    · rw [if_pos h1, kernel_coeff]
      simp [h1]
    · simp [h1]
  rw [Finset.sum_congr rfl hcongr, Finset.sum_boole]
  have hfilter : (Finset.range a.toNat).filter (fun o => o ≤ i ∧ i - o < b.toNat)
      = Finset.Ico (i + 1 - b.toNat) (min a.toNat (i + 1)) := by
    ext o
    simp only [Finset.mem_filter, Finset.mem_range, Finset.mem_Ico, lt_min_iff]
    omega
  rw [hfilter, Nat.card_Ico]
  omega

/-! ### Pointwise description of the accumulation loops -/

lemma addShifted_eq_upTo (tmp : List ℚ) (off : ℕ) (arr : List ℚ) :
    addShifted tmp off arr = addShiftedUpTo tmp off arr tmp.length := rfl

lemma addShiftedUpTo_succ (tmp : List ℚ) (off : ℕ) (arr : List ℚ) (q : ℕ) :
    addShiftedUpTo tmp off arr (q + 1)
      = (addShiftedUpTo tmp off arr q).set (q + off)
          ((addShiftedUpTo tmp off arr q).getD (q + off) 0 + tmp.getD q 0) := by
  unfold addShiftedUpTo
  rw [List.range_succ, List.foldl_append, List.foldl_cons, List.foldl_nil]

lemma addShiftedUpTo_length (tmp : List ℚ) (off : ℕ) (arr : List ℚ) (q : ℕ) :
    (addShiftedUpTo tmp off arr q).length = arr.length := by
  induction q with
  | zero => rfl
  | succ q ih => rw [addShiftedUpTo_succ, List.length_set, ih]

lemma addShiftedUpTo_getElem? (tmp : List ℚ) (off : ℕ) (arr : List ℚ)
    (hb : off + tmp.length ≤ arr.length) :
    ∀ q, q ≤ tmp.length → ∀ i, i < arr.length →
      (addShiftedUpTo tmp off arr q)[i]?
        = some (arr.getD i 0
            + if off ≤ i ∧ i - off < q then tmp.getD (i - off) 0 else 0) := by
  intro q
  induction q with
  | zero =>
      intro _ i hi
      show arr[i]? = _
      rw [if_neg (by omega), List.getElem?_eq_getElem hi,
        List.getD_eq_getElem?_getD, List.getElem?_eq_getElem hi]
      simp
  | succ q ih =>
      intro hq i hi
      have hq' : q ≤ tmp.length := by omega
      have hlenA : (addShiftedUpTo tmp off arr q).length = arr.length :=
        addShiftedUpTo_length tmp off arr q
      have hgetA : (addShiftedUpTo tmp off arr q).getD (q + off) 0
          = arr.getD (q + off) 0 := by
        rw [List.getD_eq_getElem?_getD, ih hq' (q + off) (by omega)]
        rw [if_neg (by omega)]
        simp
      rw [addShiftedUpTo_succ, List.getElem?_set]
      rcases eq_or_ne (q + off) i with hqi | hqi
      · rw [if_pos hqi, if_pos (by omega), hgetA, hqi]
        rw [if_pos (by omega)]
        have harg : i - off = q := by omega
        rw [harg]
      · rw [if_neg hqi, ih hq' i hi]
        by_cases hc : off ≤ i ∧ i - off < q
        · rw [if_pos hc, if_pos (by omega)]
        · rw [if_neg hc, if_neg (by omega)]

lemma addShifted_getElem? (tmp : List ℚ) (off : ℕ) (arr : List ℚ)
    (hb : off + tmp.length ≤ arr.length) (i : ℕ) (hi : i < arr.length) :
    (addShifted tmp off arr)[i]?
      = some (arr.getD i 0
          + if off ≤ i ∧ i - off < tmp.length then tmp.getD (i - off) 0 else 0) := by
  rw [addShifted_eq_upTo]
  exact addShiftedUpTo_getElem? tmp off arr hb tmp.length le_rfl i hi

lemma accumLoop_eq_upTo (lenP : ℕ) (tmp : List ℚ) (d0 : ℤ) :
    accumLoop lenP tmp d0 = accumUpTo lenP tmp d0.toNat := rfl

lemma accumUpTo_succ (lenP : ℕ) (tmp : List ℚ) (j : ℕ) :
    accumUpTo lenP tmp (j + 1) = addShifted tmp j (accumUpTo lenP tmp j) := by
  unfold accumUpTo
  rw [List.range_succ, List.foldl_append, List.foldl_cons, List.foldl_nil]

lemma accumUpTo_length (lenP : ℕ) (tmp : List ℚ) (j : ℕ) :
    (accumUpTo lenP tmp j).length = lenP := by
  induction j with
  | zero => simp [accumUpTo]
  | succ j ih => rw [accumUpTo_succ, addShifted_length, ih]

/-- after the first `j` offsets, entry `i` of the accumulator is the sum of
the shifted copies of `tmp` processed so far. -/
lemma accumUpTo_getElem? (lenP : ℕ) (tmp : List ℚ) (j : ℕ)
    (hb : ∀ o, o < j → o + tmp.length ≤ lenP) (i : ℕ) (hi : i < lenP) :
    (accumUpTo lenP tmp j)[i]?
      = some (∑ o ∈ Finset.range j,
          if o ≤ i ∧ i - o < tmp.length then tmp.getD (i - o) 0 else 0) := by
  induction j with
  | zero =>
      show (List.replicate lenP (0 : ℚ))[i]? = _
      rw [List.getElem?_replicate, if_pos hi]
      simp
  | succ j ih =>
      have hlenA : (accumUpTo lenP tmp j).length = lenP := accumUpTo_length lenP tmp j
      rw [accumUpTo_succ,
        addShifted_getElem? tmp j (accumUpTo lenP tmp j)
          (by rw [hlenA]; exact hb j (by omega)) i (by omega),
        List.getD_eq_getElem?_getD, ih (fun o ho => hb o (by omega)),
        Finset.sum_range_succ]
      simp

/-! ### The master description of `diceMap` with `rec=True` -/

lemma countMapL_length (l : List ℤ) : (countMapL l).length = cmLen l := by
  unfold countMapL
  rw [List.length_map, List.length_range]

lemma countMapL_getElem? (l : List ℤ) (i : ℕ) (hi : i < cmLen l) :
    (countMapL l)[i]? = some (((countPoly l).coeff i : ℤ) : ℚ) := by
  unfold countMapL
  rw [List.getElem?_map, List.getElem?_range hi]
  rfl

lemma countMapL_getD (l : List ℤ) (p : ℕ) (hp : p < cmLen l) :
    (countMapL l).getD p 0 = (((countPoly l).coeff p : ℤ) : ℚ) := by
  rw [List.getD_eq_getElem?_getD, countMapL_getElem? l p hp]
  rfl

lemma finishDiv_true (div : ℤ) (pa : List ℚ) :
    finishDiv div true pa = Except.ok pa := rfl

/-- expressing the head-die convolution of `diceMap` as a coefficient of
`countPoly`, at the integer level. -/
lemma coeff_cons_sum (d0 : ℤ) (t : List ℤ) (ht : ∀ x ∈ t, 1 ≤ x) (i : ℕ) :
    (countPoly (d0 :: t)).coeff i
      = ∑ o ∈ Finset.range d0.toNat,
          if o ≤ i ∧ i - o < cmLen t then (countPoly t).coeff (i - o) else 0 := by
  rw [countPoly_cons, coeff_kernel_mul]
  refine Finset.sum_congr rfl fun o _ => ?_
  by_cases h1 : o ≤ i
  · by_cases h2 : i - o < cmLen t
    · rw [if_pos h1, if_pos ⟨h1, h2⟩]
    · rw [if_pos h1, if_neg (by tauto)]
      apply countPoly_coeff_eq_zero t ht
      have hsl := length_le_sum_of_one_le t ht
      unfold cmLen at h2
      omega
  · rw [if_neg h1, if_neg (by tauto)]

/-- `diceMap` with `rec=True` on a hand of at least two valid dice returns
exactly the coefficient list of the product of the dice kernels. -/
lemma diceMap_true_eq : ∀ (l : List ℤ), validHand l → 2 ≤ l.length →
    diceMap l true = Except.ok (countMapL l) := by
  intro l
  induction l with
  | nil => intro hv _; exact absurd rfl hv.1
  | cons d0 t ih =>
      intro hv h2
      match t, ih with
      | [], _ => simp at h2
      | [d1], _ =>
          have hd0 : 1 ≤ d0 := hv.2 d0 (by simp)
          have hd1 : 1 ≤ d1 := hv.2 d1 (by simp)
          have hcm : cmLen [d0, d1] = (d0 + d1 - 1).toNat := by
            unfold cmLen
            simp only [List.sum_cons, List.sum_nil, List.length_cons, List.length_nil]
            omega
          rw [diceMap_pair, finishDiv_true]
          congr 1
          apply List.ext_getElem?
          intro i
          by_cases hi : i < (d0 + d1 - 1).toNat
          · rw [List.getElem?_map, doubleDiceCall_getElem? d0 d1 i hi,
              countMapL_getElem? _ i (by omega)]
            have hpoly : countPoly [d0, d1] = kernel d0 * kernel d1 := by
              unfold countPoly
              simp
            rw [hpoly, coeff_kernel_kernel d0 d1 hd0 hd1 i (by omega)]
            rfl
          · rw [List.getElem?_eq_none
                (by rw [List.length_map, doubleDiceCall_length]; omega),
              List.getElem?_eq_none (by rw [countMapL_length]; omega)]
      | d1 :: d2 :: rest, ih =>
          have hvt : validHand (d1 :: d2 :: rest) := validHand_tail d0 d1 _ hv
          have hd0 : 1 ≤ d0 := hv.2 d0 (by simp)
          have hsl := length_le_sum_of_one_le _ hvt.2
          have htail := ih hvt (by simp)
          have hcm : cmLen (d0 :: d1 :: d2 :: rest)
              = cmLen (d1 :: d2 :: rest) + d0.toNat - 1 := by
            unfold cmLen
            simp only [List.sum_cons, List.length_cons] at *
            push_cast at *
            omega
          have hb : ∀ o, o < d0.toNat →
              o + (countMapL (d1 :: d2 :: rest)).length
                ≤ cmLen (d0 :: d1 :: d2 :: rest) := by
            intro o ho
            rw [countMapL_length, hcm]
            have : 1 ≤ cmLen (d1 :: d2 :: rest) := by
              unfold cmLen
              simp only [List.sum_cons, List.length_cons] at *
              omega
            omega
          rw [diceMap_cons₃ d0 d1 d2 rest true _ htail, finishDiv_true]
          congr 1
          apply List.ext_getElem?
          intro i
          by_cases hi : i < cmLen (d0 :: d1 :: d2 :: rest)
          · rw [accumLoop_eq_upTo, accumUpTo_getElem? _ _ _ hb i hi,
              countMapL_getElem? _ i hi]
            congr 1
            have hsum : ∑ o ∈ Finset.range d0.toNat,
                (if o ≤ i ∧ i - o < (countMapL (d1 :: d2 :: rest)).length
                  then (countMapL (d1 :: d2 :: rest)).getD (i - o) 0 else 0)
                = ∑ o ∈ Finset.range d0.toNat,
                    (if o ≤ i ∧ i - o < cmLen (d1 :: d2 :: rest)
                      then (((countPoly (d1 :: d2 :: rest)).coeff (i - o) : ℤ) : ℚ)
                      else 0) := by
              refine Finset.sum_congr rfl fun o _ => ?_
              rw [countMapL_length]
              by_cases hc : o ≤ i ∧ i - o < cmLen (d1 :: d2 :: rest)
              · rw [if_pos hc, if_pos hc, countMapL_getD _ _ hc.2]
              · rw [if_neg hc, if_neg hc]
            rw [hsum, coeff_cons_sum d0 (d1 :: d2 :: rest) hvt.2 i, Int.cast_sum]
            refine Finset.sum_congr rfl fun o _ => ?_
            split_ifs <;> simp
          · rw [List.getElem?_eq_none (by rw [accumLoop_length]; omega),
              List.getElem?_eq_none (by rw [countMapL_length]; omega)]

/-! ### Consequences: entry-sum, permutation invariance, `rec=False` form -/

lemma list_sum_map_range (n : ℕ) (f : ℕ → ℚ) :
    ((List.range n).map f).sum = ∑ i ∈ Finset.range n, f i := by
  induction n with
  | zero => simp
  | succ n ih =>
      rw [List.range_succ, List.map_append, List.sum_append, Finset.sum_range_succ,
        ih]
      simp

/-- the entries of the count-map list add up to the product of the hand:
evaluation of `countPoly` at `1`. -/
lemma countMapL_sum (l : List ℤ) (h : ∀ x ∈ l, 1 ≤ x) :
    (countMapL l).sum = (l.prod : ℚ) := by
  unfold countMapL
  rw [list_sum_map_range]
  have hdeg : (countPoly l).natDegree < cmLen l := by
    have h1 := countPoly_natDegree_le l h
    have h2 := length_le_sum_of_one_le l h
    unfold cmLen
    omega
  have heval := Polynomial.eval_eq_sum_range' hdeg (1 : ℤ)
  rw [countPoly_eval_one l h] at heval
  simp only [one_pow, mul_one] at heval
  rw [← Int.cast_sum, ← heval]

lemma cmLen_perm (l₁ l₂ : List ℤ) (h : l₁.Perm l₂) : cmLen l₁ = cmLen l₂ := by
  unfold cmLen
  rw [h.sum_eq, h.length_eq]

lemma countPoly_perm (l₁ l₂ : List ℤ) (h : l₁.Perm l₂) :
    countPoly l₁ = countPoly l₂ :=
  (h.map kernel).prod_eq

lemma countMapL_perm (l₁ l₂ : List ℤ) (h : l₁.Perm l₂) :
    countMapL l₁ = countMapL l₂ := by
  unfold countMapL
  rw [cmLen_perm l₁ l₂ h, countPoly_perm l₁ l₂ h]

lemma finishDiv_false_of_ne_zero (div : ℤ) (hdiv : div ≠ 0) (pa : List ℚ) :
    finishDiv div false pa = Except.ok (pa.map (fun q => q / (div : ℚ))) := by
  rw [finishDiv_of_ne_zero _ hdiv]
  simp

/-- `diceMap` with `rec=False` on a hand of at least two valid dice is the
count-map with every entry divided by `product(hand)`. -/
lemma diceMap_false_eq (l : List ℤ) (hv : validHand l) (h2 : 2 ≤ l.length) :
    diceMap l false
      = Except.ok ((countMapL l).map (fun q => q / (l.prod : ℚ))) := by
  match l, h2 with
  | [d0, d1], _ =>
      have hd0 : 1 ≤ d0 := hv.2 d0 (by simp)
      have hd1 : 1 ≤ d1 := hv.2 d1 (by simp)
      have hdiv : d0 * d1 ≠ 0 := (mul_pos (by omega) (by omega)).ne'
      have hmaster := diceMap_true_eq [d0, d1] hv (by simp)
      rw [diceMap_pair, finishDiv_true] at hmaster
      have hpa : (doubleDiceCall d0 d1).map (fun o => ((o.getD 0 : ℤ) : ℚ))
          = countMapL [d0, d1] := by
        simpa using hmaster
      rw [diceMap_pair, finishDiv_false_of_ne_zero _ hdiv, hpa,
        show ([d0, d1] : List ℤ).prod = d0 * d1 by simp]
  | d0 :: d1 :: d2 :: rest, _ =>
      have hvt : validHand (d1 :: d2 :: rest) := validHand_tail d0 d1 _ hv
      have hd0 : 1 ≤ d0 := hv.2 d0 (by simp)
      have htail := diceMap_true_eq (d1 :: d2 :: rest) hvt (by simp)
      have hdiv : (d1 :: d2 :: rest).foldl (· * ·) d0 ≠ 0 := by
        rw [foldl_mul_eq_prod]
        exact (mul_pos (by omega) (prod_pos_of_one_le _ hvt.2)).ne'
      have hmaster := diceMap_true_eq (d0 :: d1 :: d2 :: rest) hv (by simp)
      rw [diceMap_cons₃ d0 d1 d2 rest true _ htail, finishDiv_true] at hmaster
      have hpa : accumLoop (cmLen (d0 :: d1 :: d2 :: rest))
            (countMapL (d1 :: d2 :: rest)) d0
          = countMapL (d0 :: d1 :: d2 :: rest) := by
        simpa using hmaster
      rw [diceMap_cons₃ d0 d1 d2 rest false _ htail,
        finishDiv_false_of_ne_zero _ hdiv, hpa, foldl_mul_eq_prod,
        ← List.prod_cons]

/-! ### The state-threaded model computes `diceMap` and keeps its input

Python passes `diceList` by object reference, so `diceMap` could in
principle mutate the caller's list; threading the object's state through
the body (`diceMapStFuel` above) shows it is returned unchanged. -/

lemma diceMap_cons₃_error (d0 d1 d2 : ℤ) (rest : List ℤ) (r : Bool) (e : PyError)
    (h : diceMap (d1 :: d2 :: rest) true = Except.error e) :
    diceMap (d0 :: d1 :: d2 :: rest) r = Except.error e := by
  have hdef : diceMap (d0 :: d1 :: d2 :: rest) r
      = match diceMap (d1 :: d2 :: rest) true with
        | Except.error e => Except.error e
        | Except.ok tmp =>
            finishDiv ((d1 :: d2 :: rest).foldl (· * ·) d0) r
              (accumLoop (cmLen (d0 :: d1 :: d2 :: rest)) tmp d0) := rfl
  rw [hdef, h]

/-- the state-threaded body never writes to the `diceList` object. -/
lemma diceMapStFuel_snd : ∀ (fuel : ℕ) (dl : List ℤ) (r : Bool),
    (diceMapStFuel fuel dl r).2 = dl := by
  intro fuel
  induction fuel with
  | zero => intro dl r; rfl
  | succ fuel ih =>
      intro dl r
      match dl with
      | [] => rfl
      | [d0] => rfl
      | [d0, d1] => rfl
      | d0 :: d1 :: d2 :: rest =>
          simp only [diceMapStFuel, pySum, pyLen, pyReduceMul, pySubscript,
            pySliceTail, List.length_cons]
          rw [if_neg (by omega), if_pos (by omega)]
          cases (diceMapStFuel fuel ((d0 :: d1 :: d2 :: rest).drop 1) true).1 <;> rfl

/-- the state-threaded body computes exactly `diceMap` when given enough
fuel (the length of the list suffices). -/
lemma diceMapStFuel_fst : ∀ (fuel : ℕ) (dl : List ℤ) (r : Bool),
    dl.length ≤ fuel → (diceMapStFuel fuel dl r).1 = diceMap dl r := by
  intro fuel
  induction fuel with
  | zero =>
      intro dl r h
      have hnil : dl = [] := List.eq_nil_of_length_eq_zero (by omega)
      subst hnil
      rfl
  | succ fuel ih =>
      intro dl r h
      match dl with
      | [] => rfl
      | [d0] => rfl
      | [d0, d1] => rfl
      | d0 :: d1 :: d2 :: rest =>
          simp only [diceMapStFuel, pySum, pyLen, pyReduceMul, pySubscript,
            pySliceTail, List.length_cons]
          rw [if_neg (by omega), if_pos (by omega)]
          rw [show (d0 :: d1 :: d2 :: rest).drop 1 = d1 :: d2 :: rest from rfl,
            ih (d1 :: d2 :: rest) true (by simp at h ⊢; omega)]
          cases htmp : diceMap (d1 :: d2 :: rest) true with
          | error e => rw [diceMap_cons₃_error d0 d1 d2 rest r e htmp]
          | ok tmp =>
              rw [diceMap_cons₃ d0 d1 d2 rest r tmp htmp]
              rfl

/-! ### Claim theorems -/

/-- C1 counterexample: on the valid single-die hand `[2]`, `diceMap` with
`rec=True` returns the probability vector `[1/2, 1/2]`, whose entry-sum `1`
is not `product(hand) = 2`; the claimed invariant fails for one-die hands. -/
theorem singleDie_sum_invariant_cex :
    validHand [2]
    ∧ diceMap [2] true = Except.ok [1 / 2, 1 / 2]
    ∧ ([1 / 2, 1 / 2] : List ℚ).sum ≠ (([2] : List ℤ).prod : ℚ) :=
  ⟨by decide, rfl, by norm_num⟩

/-- C1 amended: for every valid hand with at least two dice, the count-map
returned by `diceMap` with `rec=True` has entry-sum exactly `product(hand)`
(a single-die hand instead returns probabilities summing to 1). -/
theorem sum_invariant_of_two_dice (l : List ℤ) (hv : validHand l)
    (h2 : 2 ≤ l.length) :
    ∃ cm, diceMap l true = Except.ok cm ∧ cm.sum = (l.prod : ℚ) :=
  ⟨countMapL l, diceMap_true_eq l hv h2, countMapL_sum l hv.2⟩

/-- C1 witness: the amended invariant at the hand `[3, 4, 4]`. -/
theorem sum_invariant_of_two_dice_witness :
    ∃ cm, diceMap [3, 4, 4] true = Except.ok cm
      ∧ cm.sum = (([3, 4, 4] : List ℤ).prod : ℚ) :=
  sum_invariant_of_two_dice [3, 4, 4] (by decide) (by decide)

/-- C2: for all die sizes `n, m ≥ 1`, `doubleDiceCall` returns a list of
length `n+m-1` whose entry at each index `i` is
`min(i+1, min(n,m), n+m-1-i)`. -/
theorem pairCounter_closed_form (n m : ℤ) (hn : 1 ≤ n) (hm : 1 ≤ m) :
    ((doubleDiceCall n m).length : ℤ) = n + m - 1
    ∧ ∀ i : ℕ, (i : ℤ) < n + m - 1 →
        (doubleDiceCall n m)[i]?
          = some (some (min (min ((i : ℤ) + 1) (min n m)) (n + m - 1 - i))) := by
  constructor
  · rw [doubleDiceCall_length]
    omega
  · intro i hi
    exact doubleDiceCall_getElem? n m i (by omega)

/-- C2 witness: two six-sided dice, entry at index 5 (sum 7) counts 6. -/
theorem pairCounter_closed_form_witness :
    (doubleDiceCall 6 6)[5]? = some (some 6) := by
  have h := (pairCounter_closed_form 6 6 (by norm_num) (by norm_num)).2 5 (by norm_num)
  rw [h]
  norm_num

/-- C3 counterexample: the hand `[0, 6]` contains a die size below 1, yet
`diceMap` with `rec=True` returns normally (a zero count-map); no
invalid-input error exists in the code. -/
theorem invalidHand_ok_cex :
    ¬ validHand [0, 6] ∧ diceMap [0, 6] true = Except.ok [0, 0, 0, 0, 0] :=
  ⟨by decide, rfl⟩

/-- C3 amended: the code performs no input validation and raises no
`InvalidDiceSpec`; the empty hand fails with `TypeError` from `reduce`, the
hand `[0, 6]` fails with `ZeroDivisionError` only when probabilities are
requested (`rec=False`) and returns a zero count-map without error when
`rec=True`, and over valid hands the function is total. -/
theorem error_behavior :
    (∀ r, diceMap [] r = Except.error PyError.typeError)
    ∧ diceMap [0, 6] false = Except.error PyError.zeroDivisionError
    ∧ diceMap [0, 6] true = Except.ok [0, 0, 0, 0, 0]
    ∧ ∀ (l : List ℤ) (r : Bool), validHand l →
        ∃ res, diceMap l r = Except.ok res :=
  ⟨fun _ => rfl, rfl, rfl,
    fun l r hv => (diceMap_ok l hv r).imp fun _ h => h.1⟩

/-- C3 witness: totality on the valid hand `[6, 6]` with `rec=False`. -/
theorem error_behavior_witness :
    ∃ res, diceMap [6, 6] false = Except.ok res :=
  error_behavior.2.2.2 [6, 6] false (by decide)

/-- C4: `diceMap([3,4,4], rec=True)` returns exactly
`[1, 3, 6, 9, 10, 9, 6, 3, 1]`. -/
theorem multiDice_concrete_344 :
    diceMap [3, 4, 4] true = Except.ok [1, 3, 6, 9, 10, 9, 6, 3, 1] := by
  norm_num [show diceMap [3, 4, 4] true
      = Except.ok (accumLoop (cmLen [3, 4, 4])
          ((doubleDiceCall 4 4).map (fun o => ((o.getD 0 : ℤ) : ℚ))) 3) from rfl,
    show (doubleDiceCall 4 4).map (fun o => ((o.getD 0 : ℤ) : ℚ))
      = ([1, 2, 3, 4, 3, 2, 1] : List ℤ).map (fun z => (z : ℚ)) from rfl,
    show cmLen [3, 4, 4] = 9 from rfl,
    accumLoop, addShifted,
    show Int.toNat 3 = 3 from rfl,
    show List.range 3 = [0, 1, 2] from rfl,
    show List.range 7 = [0, 1, 2, 3, 4, 5, 6] from rfl]
  rfl

/-- C5: for every valid hand, both with `rec=True` and `rec=False`, the
result has length `sum(hand) - len(hand) + 1`. -/
theorem result_length (l : List ℤ) (hv : validHand l) (r : Bool) :
    ∃ res, diceMap l r = Except.ok res
      ∧ (res.length : ℤ) = l.sum - l.length + 1 := by
  obtain ⟨res, h1, h2⟩ := diceMap_ok l hv r
  refine ⟨res, h1, ?_⟩
  rw [h2]
  have := length_le_sum_of_one_le l hv.2
  unfold cmLen
  omega

/-- C5 witness: the hand `[6, 6]` with `rec=False`. -/
theorem result_length_witness :
    ∃ res, diceMap [6, 6] false = Except.ok res
      ∧ (res.length : ℤ)
          = ([6, 6] : List ℤ).sum - ([6, 6] : List ℤ).length + 1 :=
  result_length [6, 6] (by decide) false

/-- C6: for every die size `n ≥ 1` and either value of the `rec` flag,
`diceMap [n]` returns `n` entries all equal to `1/n` — the same
probabilities even when the raw count-map is requested. -/
theorem single_die_uniform (n : ℤ) (hn : 1 ≤ n) (r : Bool) :
    diceMap [n] r = Except.ok (List.replicate n.toNat (1 / (n : ℚ)))
    ∧ ((List.replicate n.toNat (1 / (n : ℚ))).length : ℤ) = n
    ∧ ∀ q ∈ List.replicate n.toNat (1 / (n : ℚ)), q = 1 / (n : ℚ) := by
  refine ⟨rfl, ?_, fun q hq => List.eq_of_mem_replicate hq⟩
  rw [List.length_replicate]
  omega

/-- C6 witness: a six-sided die with `rec=True`. -/
theorem single_die_uniform_witness :
    diceMap [6] true
        = Except.ok (List.replicate (6 : ℤ).toNat (1 / ((6 : ℤ) : ℚ)))
    ∧ (((List.replicate (6 : ℤ).toNat (1 / ((6 : ℤ) : ℚ))).length : ℤ)) = 6
    ∧ ∀ q ∈ List.replicate (6 : ℤ).toNat (1 / ((6 : ℤ) : ℚ)),
        q = 1 / ((6 : ℤ) : ℚ) :=
  single_die_uniform 6 (by norm_num) true

/-- C7: `diceMap` returns the same result on any permutation of a valid
hand, for both values of the `rec` flag. -/
theorem perm_invariant (l₁ l₂ : List ℤ) (hv : validHand l₁)
    (hp : l₁.Perm l₂) (r : Bool) : diceMap l₁ r = diceMap l₂ r := by
  have hv₂ : validHand l₂ := by
    constructor
    · intro hnil
      subst hnil
      exact hv.1 hp.eq_nil
    · intro x hx
      exact hv.2 x (hp.mem_iff.mpr hx)
  by_cases h2 : 2 ≤ l₁.length
  · have h2' : 2 ≤ l₂.length := by rw [← hp.length_eq]; exact h2
    cases r with
    | true =>
        rw [diceMap_true_eq l₁ hv h2, diceMap_true_eq l₂ hv₂ h2',
          countMapL_perm l₁ l₂ hp]
    | false =>
        rw [diceMap_false_eq l₁ hv h2, diceMap_false_eq l₂ hv₂ h2',
          countMapL_perm l₁ l₂ hp, hp.prod_eq]
  · have h1 : l₁.length = 1 := by
      have := List.length_pos.mpr hv.1
      omega
    obtain ⟨a, ha⟩ := List.length_eq_one.mp h1
    subst ha
    rw [List.perm_singleton.mp hp.symm]

/-- C7 witness: `[4, 6, 6]` against its permutation `[6, 4, 6]`. -/
theorem perm_invariant_witness :
    diceMap [4, 6, 6] false = diceMap [6, 4, 6] false :=
  perm_invariant [4, 6, 6] [6, 4, 6] (by decide) (by decide) false

/-- C8: on every valid hand with at least two dice — exactly the hands every
recursive sub-call receives — the `rec=True` result is a list of integers,
and the `rec=False` result arises from those same integers by the single
final division by `product(hand)`. -/
theorem integer_intermediate (l : List ℤ) (hv : validHand l)
    (h2 : 2 ≤ l.length) :
    ∃ cnt : List ℤ,
      diceMap l true = Except.ok (cnt.map (fun z : ℤ => (z : ℚ)))
      ∧ diceMap l false
          = Except.ok (cnt.map (fun z : ℤ => (z : ℚ) / (l.prod : ℚ))) := by
  refine ⟨(List.range (cmLen l)).map (fun i => (countPoly l).coeff i), ?_, ?_⟩
  · rw [diceMap_true_eq l hv h2]
    congr 1
    unfold countMapL
    rw [List.map_map]
    rfl
  · rw [diceMap_false_eq l hv h2]
    congr 1
    unfold countMapL
    rw [List.map_map, List.map_map]
    rfl

/-- C8 witness: the hand `[6, 6]`. -/
theorem integer_intermediate_witness :
    ∃ cnt : List ℤ,
      diceMap [6, 6] true = Except.ok (cnt.map (fun z : ℤ => (z : ℚ)))
      ∧ diceMap [6, 6] false
          = Except.ok
              (cnt.map (fun z : ℤ => (z : ℚ) / (([6, 6] : List ℤ).prod : ℚ))) :=
  integer_intermediate [6, 6] (by decide) (by decide)

/-- C9: `diceMap` never mutates its `diceList` argument: the state-threaded
model of the body agrees with `diceMap` on the result and returns the
caller's list unchanged, for every input and both `rec` flags. -/
theorem no_input_mutation (dl : List ℤ) (r : Bool) :
    (diceMapSt dl r).1 = diceMap dl r ∧ (diceMapSt dl r).2 = dl :=
  ⟨diceMapStFuel_fst dl.length dl r le_rfl, diceMapStFuel_snd dl.length dl r⟩

/-- C10: for die sizes `n, m ≥ 1` the mirrored loop initialises every entry
of the output list: no entry is `None`, and every entry is a positive
count. -/
theorem pairCounter_initialized (n m : ℤ) (hn : 1 ≤ n) (hm : 1 ≤ m) :
    ∀ o ∈ doubleDiceCall n m, ∃ v : ℤ, o = some v ∧ 1 ≤ v := by
  intro o ho
  obtain ⟨i, hio⟩ := List.getElem?_of_mem ho
  have hi : i < (n + m - 1).toNat := by
    by_contra hcon
    rw [List.getElem?_eq_none (by rw [doubleDiceCall_length]; omega)] at hio
    exact Option.noConfusion hio
  rw [doubleDiceCall_getElem? n m i hi] at hio
  refine ⟨min (min ((i : ℤ) + 1) (min n m)) (n + m - 1 - i),
    (Option.some.inj hio).symm, by omega⟩

/-- C10 witness: the entry `some 2` of `doubleDiceCall 2 4`. -/
theorem pairCounter_initialized_witness :
    ∃ v : ℤ, (some 2 : Option ℤ) = some v ∧ 1 ≤ v :=
  pairCounter_initialized 2 4 (by norm_num) (by norm_num) (some 2) (by decide)

end DiceMapApp
